import Mathlib

/-!
Verification of the Bell-state simulator described by this repository.

The repository is a notebook that builds the two-qubit Bell circuit
(Hadamard on qubit 0, controlled-NOT with control 0 and target 1, then a
measurement of both qubits), runs it on a statevector simulator and tallies
the outcome histogram.  The statevector operations themselves are supplied
by the external library the notebook calls into; the specification describes
them as `apply_hadamard`, `apply_controlled_not`, `measure_all` and
`run_shots`, which we model here over exact complex arithmetic.
-/

namespace QuantumSim

/-- Modelled from the spec: a quantum state on `n` qubits is a complex vector
of length `2 ^ n` whose entries are amplitudes over basis states indexed by
`n`-bit strings; bit `q` of the index is the value of qubit `q`. -/
def QState (n : ℕ) : Type := Fin (2 ^ n) → ℂ

/-- The basis state with amplitude 1 on index `i` and 0 elsewhere. -/
def basisState (n : ℕ) (i : Fin (2 ^ n)) : QState n :=
  fun k => if k = i then 1 else 0

/-- The all-zero initial state `|0…0⟩`. -/
def initState (n : ℕ) : QState n := basisState n ⟨0, Nat.two_pow_pos n⟩

/-- Flip bit `q` of a basis-state index (xor with `2 ^ q`). -/
def flipB (n q : ℕ) (hq : q < n) (k : Fin (2 ^ n)) : Fin (2 ^ n) :=
  ⟨(k : ℕ) ^^^ 2 ^ q, Nat.xor_lt_two_pow k.isLt (Nat.pow_lt_pow_right one_lt_two hq)⟩

/-- The amplitude scale factor `1/√2` of the Hadamard gate. -/
noncomputable def invSqrt2 : ℂ := (Complex.ofReal (Real.sqrt 2))⁻¹

/-- The in-range Hadamard transform on qubit `q`: each amplitude pair over the
target bit is replaced by its scaled sum and difference. -/
noncomputable def hTrans (n q : ℕ) (hq : q < n) (s : QState n) : QState n :=
  fun k =>
    (if (k : ℕ).testBit q then s (flipB n q hq k) - s k
     else s k + s (flipB n q hq k)) * invSqrt2

/-- Modelled from the spec: `apply_hadamard state qubit` applies the 1-qubit
Hadamard transform to the target qubit's amplitude pairs; it fails
(IndexError-equivalent, modelled as `none`) exactly for an out-of-range
qubit index. -/
noncomputable def apply_hadamard (n : ℕ) (s : QState n) (q : ℕ) :
    Option (QState n) :=
  if hq : q < n then some (hTrans n q hq s) else none

/-- The in-range controlled-NOT transform: amplitudes whose control bit is 1
are taken from the index with the target bit flipped. -/
def cxTrans (n c t : ℕ) (ht : t < n) (s : QState n) : QState n :=
  fun k => if (k : ℕ).testBit c then s (flipB n t ht k) else s k

/-- Modelled from the spec: `apply_controlled_not state control target` swaps
the amplitude pairs whose control bit is 1, flipping the target bit; it fails
exactly when `control = target` or either index is out of range. -/
def apply_controlled_not (n : ℕ) (s : QState n) (c t : ℕ) :
    Option (QState n) :=
  if h : c < n ∧ t < n ∧ c ≠ t then some (cxTrans n c t h.2.1 s) else none

/-- Sum of squared amplitude magnitudes (the normalization invariant). -/
noncomputable def normSqSum {n : ℕ} (s : QState n) : ℝ :=
  Finset.sum Finset.univ fun k => Complex.normSq (s k)

/-! ### Basic facts about `flipB` -/

theorem flipB_flipB (n q : ℕ) (hq : q < n) (k : Fin (2 ^ n)) :
    flipB n q hq (flipB n q hq k) = k := by
  apply Fin.ext
  simp [flipB, Nat.xor_assoc]

theorem flipB_involutive (n q : ℕ) (hq : q < n) :
    Function.Involutive (flipB n q hq) :=
  flipB_flipB n q hq

theorem testBit_flipB_self (n q : ℕ) (hq : q < n) (k : Fin (2 ^ n)) :
    ((flipB n q hq k : Fin (2 ^ n)) : ℕ).testBit q = !((k : ℕ).testBit q) := by
  simp [flipB, Nat.testBit_xor, Nat.testBit_two_pow_self]

theorem testBit_flipB_other (n q j : ℕ) (hq : q < n) (hj : j ≠ q)
    (k : Fin (2 ^ n)) :
    ((flipB n q hq k : Fin (2 ^ n)) : ℕ).testBit j = (k : ℕ).testBit j := by
  simp [flipB, Nat.testBit_xor, Nat.testBit_two_pow_of_ne (fun h => hj h.symm)]

/-! ### Facts about the Hadamard scale factor -/

theorem sqrt2c_mul_self : (Complex.ofReal (Real.sqrt 2)) * (Complex.ofReal (Real.sqrt 2)) = 2 := by
  rw [← Complex.ofReal_mul, Real.mul_self_sqrt (by norm_num : (0:ℝ) ≤ 2)]
  norm_num

theorem invSqrt2_mul_self : invSqrt2 * invSqrt2 = 2⁻¹ := by
  rw [invSqrt2, ← mul_inv, sqrt2c_mul_self]

theorem normSq_invSqrt2 : Complex.normSq invSqrt2 = 2⁻¹ := by
  rw [invSqrt2, Complex.normSq_inv, Complex.normSq_ofReal,
    Real.mul_self_sqrt (by norm_num : (0:ℝ) ≤ 2)]

theorem abs_invSqrt2 : Complex.abs invSqrt2 = (Real.sqrt 2)⁻¹ := by
  rw [invSqrt2, map_inv₀, Complex.abs_ofReal,
    abs_of_nonneg (Real.sqrt_nonneg 2)]

/-! ### Norm preservation of the two gate transforms -/

theorem hTrans_pair (n q : ℕ) (hq : q < n) (s : QState n) (k : Fin (2 ^ n)) :
    Complex.normSq (hTrans n q hq s k)
      + Complex.normSq (hTrans n q hq s (flipB n q hq k))
    = Complex.normSq (s k) + Complex.normSq (s (flipB n q hq k)) := by
  cases hb : (k : ℕ).testBit q with
  | false =>
    simp only [hTrans, hb, testBit_flipB_self, flipB_flipB, Bool.not_false,
      if_true, if_false, Bool.false_eq_true, ite_false, ite_true]
    rw [Complex.normSq_mul, Complex.normSq_mul, normSq_invSqrt2,
      Complex.normSq_add, Complex.normSq_sub]
    ring
  | true =>
    simp only [hTrans, hb, testBit_flipB_self, flipB_flipB, Bool.not_true,
      if_true, if_false, Bool.false_eq_true, ite_false, ite_true]
    rw [Complex.normSq_mul, Complex.normSq_mul, normSq_invSqrt2,
      Complex.normSq_sub, Complex.normSq_add]
    ring

theorem sum_comp_flipB (n q : ℕ) (hq : q < n) (f : Fin (2 ^ n) → ℝ) :
    (Finset.sum Finset.univ fun k => f (flipB n q hq k))
      = Finset.sum Finset.univ f :=
  Function.Bijective.sum_comp (flipB_involutive n q hq).bijective f

theorem hTrans_normSqSum (n q : ℕ) (hq : q < n) (s : QState n) :
    normSqSum (hTrans n q hq s) = normSqSum s := by
  have key : (Finset.sum Finset.univ fun k =>
        Complex.normSq (hTrans n q hq s k)
          + Complex.normSq (hTrans n q hq s (flipB n q hq k)))
      = Finset.sum Finset.univ fun k =>
        Complex.normSq (s k) + Complex.normSq (s (flipB n q hq k)) :=
    Finset.sum_congr rfl fun k _ => hTrans_pair n q hq s k
  rw [Finset.sum_add_distrib, Finset.sum_add_distrib,
    sum_comp_flipB n q hq fun k => Complex.normSq (hTrans n q hq s k),
    sum_comp_flipB n q hq fun k => Complex.normSq (s k)] at key
  have : (2 : ℝ) * normSqSum (hTrans n q hq s) = 2 * normSqSum s := by
    rw [two_mul, two_mul]; exact key
  linarith

/-- The index permutation implemented by the controlled-NOT gate. -/
def cxPermFun (n c t : ℕ) (ht : t < n) (k : Fin (2 ^ n)) : Fin (2 ^ n) :=
  if (k : ℕ).testBit c then flipB n t ht k else k

theorem cxPermFun_involutive (n c t : ℕ) (ht : t < n) (hne : c ≠ t) :
    Function.Involutive (cxPermFun n c t ht) := by
  intro k
  by_cases hb : (k : ℕ).testBit c
  · simp [cxPermFun, hb, testBit_flipB_other n t c ht hne, flipB_flipB]
  · simp [cxPermFun, hb]

theorem cxTrans_eq_comp (n c t : ℕ) (ht : t < n) (s : QState n) :
    cxTrans n c t ht s = fun k => s (cxPermFun n c t ht k) := by
  funext k
  by_cases hb : (k : ℕ).testBit c <;> simp [cxTrans, cxPermFun, hb]

theorem cxTrans_normSqSum (n c t : ℕ) (ht : t < n) (hne : c ≠ t)
    (s : QState n) : normSqSum (cxTrans n c t ht s) = normSqSum s := by
  rw [normSqSum, normSqSum]
  have hcomp := cxTrans_eq_comp n c t ht s
  calc (Finset.sum Finset.univ fun k => Complex.normSq (cxTrans n c t ht s k))
      = Finset.sum Finset.univ fun k =>
          Complex.normSq (s (cxPermFun n c t ht k)) := by rw [hcomp]
    _ = Finset.sum Finset.univ fun k => Complex.normSq (s k) :=
        Function.Bijective.sum_comp
          (cxPermFun_involutive n c t ht hne).bijective
          fun k => Complex.normSq (s k)

/-! ### Self-inverseness of the two gate transforms -/

theorem hTrans_hTrans (n q : ℕ) (hq : q < n) (s : QState n) :
    hTrans n q hq (hTrans n q hq s) = s := by
  funext k
  cases hb : (k : ℕ).testBit q with
  | false =>
    simp only [hTrans, hb, testBit_flipB_self, flipB_flipB, Bool.not_false,
      if_true, if_false, Bool.false_eq_true, ite_false, ite_true]
    linear_combination (2 * s k) * invSqrt2_mul_self
  | true =>
    simp only [hTrans, hb, testBit_flipB_self, flipB_flipB, Bool.not_true,
      if_true, if_false, Bool.false_eq_true, ite_false, ite_true]
    linear_combination (2 * s k) * invSqrt2_mul_self

theorem cxTrans_cxTrans (n c t : ℕ) (ht : t < n) (hne : c ≠ t) (s : QState n) :
    cxTrans n c t ht (cxTrans n c t ht s) = s := by
  funext k
  by_cases hb : (k : ℕ).testBit c
  · simp [cxTrans, hb, testBit_flipB_other n t c ht hne, flipB_flipB]
  · simp [cxTrans, hb]

/-! ### Measurement -/

/-- Inverse-CDF sampling: walk the probabilities from index `k` on, returning
the first index whose probability exceeds the remaining random mass `r`;
when the fuel runs out the current index is returned, which clamps the
result to the last basis state. -/
noncomputable def sampleGo (p : ℕ → ℝ) : ℕ → ℕ → ℝ → ℕ
  | 0, k, _ => k
  | fuel + 1, k, r => if r < p k then k else sampleGo p fuel (k + 1) (r - p k)

/-- The Born-rule probability of basis index `j` (0 outside the range). -/
noncomputable def probOf {n : ℕ} (s : QState n) (j : ℕ) : ℝ :=
  if h : j < 2 ^ n then Complex.normSq (s ⟨j, h⟩) else 0

/-- Render basis index `k` as an `n`-bit string, highest qubit first
(the bit-ordering convention of the notebook's histogram keys). -/
def toBitstring (n k : ℕ) : String :=
  String.mk ((List.range n).reverse.map fun i => if k.testBit i then '1' else '0')

/-- Modelled from the spec: `measure_all state rng` draws a basis-state index
with probability equal to its squared amplitude magnitude, using one uniform
draw `r` from the supplied random source, and returns its bitstring. -/
noncomputable def measure_all {n : ℕ} (s : QState n) (r : ℝ) : String :=
  toBitstring n (sampleGo (probOf s) (2 ^ n - 1) 0 r)

/-! ### Circuits and the shot loop -/

/-- A gate operation of the circuit: Hadamard, controlled-NOT or the final
measurement of all qubits. -/
inductive Gate where
  | h : ℕ → Gate
  | cx : ℕ → ℕ → Gate
  | measure : Gate
deriving DecidableEq

/-- A circuit: quantum/classical register sizes and an ordered, immutable
gate sequence. -/
structure Circuit where
  nq : ℕ
  nc : ℕ
  gates : List Gate
deriving DecidableEq

/-- `QuantumCircuit(q, c)`: an empty circuit over the two registers. -/
def QuantumCircuit (qn cn : ℕ) : Circuit := ⟨qn, cn, []⟩

/-- `circuit.h(q)`: append a Hadamard gate. -/
def Circuit.h (c : Circuit) (q : ℕ) : Circuit :=
  { c with gates := c.gates ++ [Gate.h q] }

/-- `circuit.cx(control, target)`: append a controlled-NOT gate. -/
def Circuit.cx (c : Circuit) (a b : ℕ) : Circuit :=
  { c with gates := c.gates ++ [Gate.cx a b] }

/-- `circuit.measure(q, c)`: append the measurement of all qubits. -/
def Circuit.measure (c : Circuit) : Circuit :=
  { c with gates := c.gates ++ [Gate.measure] }

/-- The notebook's circuit: `QuantumCircuit(q, c)` followed by `h(q[0])`,
`cx(q[0], q[1])` and `measure(q, c)`. -/
def circuit : Circuit := (((QuantumCircuit 2 2).h 0).cx 0 1).measure

/-- The notebook's "Transpile the circuit for the simulator" cell binds
`compiled_circuit` to `circuit` with no transformation. -/
def compiled_circuit : Circuit := circuit

/-- The gate sequence the spec says was built: Hadamard on qubit 0,
controlled-NOT with control 0 and target 1, then measurement. -/
def specGateSequence : List Gate := [Gate.h 0, Gate.cx 0 1, Gate.measure]

/-- Evolve a state through the gate list; measurement gates do not change the
pre-measurement state (sampling happens at the end of the shot). -/
noncomputable def applyGates (n : ℕ) : List Gate → QState n → Option (QState n)
  | [], s => some s
  | Gate.h q :: rest, s => (apply_hadamard n s q).bind (applyGates n rest)
  | Gate.cx c t :: rest, s => (apply_controlled_not n s c t).bind (applyGates n rest)
  | Gate.measure :: rest, s => applyGates n rest s

/-- A histogram of measurement outcomes. -/
def Hist : Type := String → ℕ

/-- The empty histogram. -/
def emptyHist : Hist := fun _ => 0

/-- Record one outcome in the histogram. -/
def incr (hist : Hist) (out : String) : Hist :=
  fun t => if t = out then hist t + 1 else hist t

/-- One shot: rebuild the initial state, apply the circuit's gate sequence,
and measure once with random draw `r`. -/
noncomputable def runShot (circ : Circuit) (r : ℝ) : Option String :=
  (applyGates circ.nq circ.gates (initState circ.nq)).map fun s =>
    measure_all s r

/-- Modelled from the spec: `run_shots circuit shots rng` repeats `shots`
independent shots, tallying outcomes into a histogram; a failing shot aborts
the whole run.  The circuit is threaded through the loop unchanged and
returned alongside the histogram, so that its immutability is visible. -/
noncomputable def run_shots (circ : Circuit) : ℕ → (ℕ → ℝ) → Option Hist × Circuit
  | 0, _ => (some emptyHist, circ)
  | shots + 1, rng =>
    match run_shots circ shots rng with
    | (some hist, c2) =>
      match runShot c2 (rng shots) with
      | some out => (some (incr hist out), c2)
      | none => (none, c2)
    | (none, c2) => (none, c2)

theorem run_shots_snd (circ : Circuit) (shots : ℕ) (rng : ℕ → ℝ) :
    (run_shots circ shots rng).2 = circ := by
  induction shots with
  | zero => rfl
  | succ m ih =>
    rw [run_shots]
    cases hp : run_shots circ m rng with
    | mk fst snd =>
      rw [hp] at ih
      cases fst with
      | none => simpa using ih
      | some hist =>
        cases h2 : runShot snd (rng m) with
        | none => simpa [h2] using ih
        | some out => simpa [h2] using ih

/-! ### Concrete evaluation of the Bell circuit -/

/-- The state after Hadamard on qubit 0 of `|00⟩`: amplitude `1/√2` on
indices 0 and 1. -/
noncomputable def hPlusState : QState 2 :=
  fun k => if (k : ℕ) = 0 ∨ (k : ℕ) = 1 then invSqrt2 else 0

/-- The Bell state: amplitude `1/√2` on indices 0 (`"00"`) and 3 (`"11"`). -/
noncomputable def bellVec : QState 2 :=
  fun k => if (k : ℕ) = 0 ∨ (k : ℕ) = 3 then invSqrt2 else 0

theorem had_init : apply_hadamard 2 (initState 2) 0 = some hPlusState := by
  rw [apply_hadamard, dif_pos (by norm_num : (0:ℕ) < 2)]
  refine congrArg some ?_
  funext k
  fin_cases k <;>
    simp +decide [hTrans, initState, basisState, hPlusState, flipB, Fin.ext_iff]

theorem cx_hPlus : apply_controlled_not 2 hPlusState 0 1 = some bellVec := by
  rw [apply_controlled_not,
    dif_pos (by norm_num : (0:ℕ) < 2 ∧ (1:ℕ) < 2 ∧ (0:ℕ) ≠ 1)]
  refine congrArg some ?_
  funext k
  fin_cases k <;>
    simp +decide [cxTrans, hPlusState, bellVec, flipB, Fin.ext_iff]

theorem circuit_gates : circuit.gates = specGateSequence := rfl

theorem bell_applyGates :
    applyGates 2 circuit.gates (initState 2) = some bellVec := by
  rw [circuit_gates, specGateSequence]
  simp only [applyGates, had_init, Option.bind, cx_hPlus]

theorem runShot_circuit (r : ℝ) :
    runShot circuit r = some (measure_all bellVec r) := by
  rw [runShot]
  have hnq : circuit.nq = 2 := rfl
  rw [hnq, bell_applyGates, Option.map_some']

/-! ### Evaluating the measurement on the Bell state -/

theorem sampleGo_zero (p : ℕ → ℝ) (k : ℕ) (r : ℝ) : sampleGo p 0 k r = k := rfl

theorem sampleGo_succ (p : ℕ → ℝ) (fuel k : ℕ) (r : ℝ) :
    sampleGo p (fuel + 1) k r
      = if r < p k then k else sampleGo p fuel (k + 1) (r - p k) := rfl

theorem probOf_bellVec_zero : probOf bellVec 0 = 2⁻¹ := by
  rw [probOf, dif_pos (by norm_num : (0:ℕ) < 2 ^ 2)]
  simp [bellVec, normSq_invSqrt2]

theorem probOf_bellVec_one : probOf bellVec 1 = 0 := by
  rw [probOf, dif_pos (by norm_num : (1:ℕ) < 2 ^ 2)]
  simp [bellVec]

theorem probOf_bellVec_two : probOf bellVec 2 = 0 := by
  rw [probOf, dif_pos (by norm_num : (2:ℕ) < 2 ^ 2)]
  simp [bellVec]

theorem sampleGo_one (p : ℕ → ℝ) (k : ℕ) (r : ℝ) :
    sampleGo p 1 k r = if r < p k then k else k + 1 := rfl

theorem sampleGo_two (p : ℕ → ℝ) (k : ℕ) (r : ℝ) :
    sampleGo p 2 k r = if r < p k then k else sampleGo p 1 (k + 1) (r - p k) :=
  rfl

theorem sampleGo_three (p : ℕ → ℝ) (k : ℕ) (r : ℝ) :
    sampleGo p 3 k r = if r < p k then k else sampleGo p 2 (k + 1) (r - p k) :=
  rfl

theorem sampleGo_bellVec (r : ℝ) :
    sampleGo (probOf bellVec) 3 0 r = if r < 2⁻¹ then 0 else 3 := by
  rw [sampleGo_three, probOf_bellVec_zero]
  by_cases hr : r < 2⁻¹
  · rw [if_pos hr, if_pos hr]
  · rw [if_neg hr, if_neg hr]
    have hc : ¬ r - 2⁻¹ < 0 := by
      rw [sub_neg]
      exact hr
    rw [sampleGo_two, show (0:ℕ) + 1 = 1 from rfl, probOf_bellVec_one,
      if_neg hc, sub_zero, sampleGo_one, show (1:ℕ) + 1 = 2 from rfl,
      probOf_bellVec_two, if_neg hc]

theorem toBitstring_two_zero : toBitstring 2 0 = "00" := by decide

theorem toBitstring_two_one : toBitstring 2 1 = "01" := by decide

theorem toBitstring_two_two : toBitstring 2 2 = "10" := by decide

theorem toBitstring_two_three : toBitstring 2 3 = "11" := by decide

theorem measure_bellVec (r : ℝ) :
    measure_all bellVec r = if r < 2⁻¹ then "00" else "11" := by
  rw [measure_all, show (2:ℕ) ^ 2 - 1 = 3 from rfl, sampleGo_bellVec,
    apply_ite (toBitstring 2), toBitstring_two_zero, toBitstring_two_three]

theorem measure_bellVec_mem (r : ℝ) :
    measure_all bellVec r = "00" ∨ measure_all bellVec r = "11" := by
  rw [measure_bellVec]
  by_cases hr : r < 2⁻¹
  · left
    rw [if_pos hr]
  · right
    rw [if_neg hr]

/-! ### Measurement on a deterministic basis state -/

theorem probOf_basisState (n : ℕ) (i : Fin (2 ^ n)) (j : ℕ) :
    probOf (basisState n i) j = if j = (i : ℕ) then 1 else 0 := by
  rw [probOf]
  by_cases hj : j < 2 ^ n
  · rw [dif_pos hj]
    by_cases hji : j = (i : ℕ)
    · have : (⟨j, hj⟩ : Fin (2 ^ n)) = i := Fin.ext hji
      simp [basisState, this, hji]
    · have : (⟨j, hj⟩ : Fin (2 ^ n)) ≠ i := fun e => hji (congrArg Fin.val e)
      simp [basisState, this, hji]
  · rw [dif_neg hj]
    have : j ≠ (i : ℕ) := fun e => hj (e ▸ i.isLt)
    rw [if_neg this]

theorem sampleGo_point (p : ℕ → ℝ) (i : ℕ)
    (hp : ∀ j, p j = if j = i then 1 else 0) :
    ∀ (fuel k : ℕ) (r : ℝ), k ≤ i → i ≤ k + fuel → 0 ≤ r → r < 1 →
      sampleGo p fuel k r = i := by
  intro fuel
  induction fuel with
  | zero =>
    intro k r hk hik _ _
    rw [sampleGo_zero]
    omega
  | succ m ih =>
    intro k r hk hik h0 h1
    rw [sampleGo_succ, hp k]
    by_cases hki : k = i
    · subst hki
      rw [if_pos rfl, if_pos h1]
    · rw [if_neg hki, if_neg (not_lt.mpr h0), sub_zero]
      exact ih (k + 1) r (by omega) (by omega) h0 h1

theorem measure_all_basisState (n : ℕ) (i : Fin (2 ^ n)) (r : ℝ)
    (h0 : 0 ≤ r) (h1 : r < 1) :
    measure_all (basisState n i) r = toBitstring n (i : ℕ) := by
  rw [measure_all]
  refine congrArg (toBitstring n) ?_
  have hpow : 0 < 2 ^ n := Nat.two_pow_pos n
  have hi : (i : ℕ) < 2 ^ n := i.isLt
  exact sampleGo_point (probOf (basisState n i)) (i : ℕ)
    (probOf_basisState n i) (2 ^ n - 1) 0 r (Nat.zero_le _) (by omega) h0 h1

/-! ### Normalization of basis states -/

theorem normSq_basisState (n : ℕ) (i k : Fin (2 ^ n)) :
    Complex.normSq (basisState n i k) = if k = i then 1 else 0 := by
  by_cases hk : k = i <;> simp [basisState, hk]

theorem normSqSum_basisState (n : ℕ) (i : Fin (2 ^ n)) :
    normSqSum (basisState n i) = 1 := by
  rw [normSqSum, Finset.sum_congr rfl fun k _ => normSq_basisState n i k]
  simp

/-! ## The claims -/

/-- Claim C1: for the canonical Bell-state circuit starting from the all-zero
state `|00⟩`, applying `apply_hadamard` to qubit 0 and then
`apply_controlled_not` with qubit 0 as control and qubit 1 as target yields a
state whose amplitude magnitude is `1/√2` on basis states `"00"` and `"11"`
and `0` on basis states `"01"` and `"10"`. -/
theorem bell_state_amplitudes :
    ((apply_hadamard 2 (initState 2) 0).bind fun s =>
        apply_controlled_not 2 s 0 1) = some bellVec
    ∧ ∀ k : Fin (2 ^ 2),
        Complex.abs (bellVec k)
          = if toBitstring 2 (k : ℕ) = "00" ∨ toBitstring 2 (k : ℕ) = "11"
            then (Real.sqrt 2)⁻¹ else 0 := by
  constructor
  · rw [had_init]
    exact cx_hPlus
  · intro k
    fin_cases k <;>
      simp +decide [bellVec, abs_invSqrt2, toBitstring_two_zero,
        toBitstring_two_one, toBitstring_two_two, toBitstring_two_three]

/-- Claim C2: for every shot count and every random source, the histogram
returned by `run_shots` on the Bell-state circuit contains only the keys
`"00"` and `"11"` and never the keys `"01"` or `"10"`: every other key has
count 0. -/
theorem run_shots_bell_keys (s : String) (h00 : s ≠ "00") (h11 : s ≠ "11")
    (shots : ℕ) (rng : ℕ → ℝ) (hist : Hist)
    (hh : (run_shots circuit shots rng).1 = some hist) : hist s = 0 := by
  induction shots generalizing hist with
  | zero =>
    have he : some emptyHist = some hist := hh
    rw [← Option.some.inj he]
    rfl
  | succ m ih =>
    rw [run_shots] at hh
    cases hp : run_shots circuit m rng with
    | mk fst snd =>
      rw [hp] at hh
      have hsnd : snd = circuit := by
        have h' := run_shots_snd circuit m rng
        rw [hp] at h'
        exact h'
      cases fst with
      | none => simp at hh
      | some hprev =>
        cases h2 : runShot snd (rng m) with
        | none => simp [h2] at hh
        | some out =>
          simp only [h2] at hh
          have hout : out = "00" ∨ out = "11" := by
            rw [hsnd, runShot_circuit] at h2
            rw [← Option.some.inj h2]
            exact measure_bellVec_mem (rng m)
          have hs : s ≠ out := by
            rcases hout with h | h <;> rw [h] <;> assumption
          rw [← Option.some.inj hh, incr, if_neg hs]
          exact ih hprev (by rw [hp])

/-- Witness for C2 at one shot with the random draw 0: the histogram is
`incr emptyHist "00"`, whose count at the key `"01"` is 0. -/
theorem run_shots_bell_keys_witness : incr emptyHist "00" "01" = 0 := by
  have e1 : runShot circuit ((fun _ => (0:ℝ)) 0) = some "00" := by
    rw [runShot_circuit, measure_bellVec, if_pos (by norm_num : (0:ℝ) < 2⁻¹)]
  have h1 : (run_shots circuit 1 fun _ => (0:ℝ)).1
      = some (incr emptyHist "00") := by
    have e0 : run_shots circuit 0 (fun _ => (0:ℝ)) = (some emptyHist, circuit) :=
      rfl
    rw [show (1:ℕ) = 0 + 1 from rfl, run_shots, e0]
    simp only [e1]
  exact run_shots_bell_keys "01" (by decide) (by decide) 1 (fun _ => (0:ℝ))
    (incr emptyHist "00") h1

/-- Claim C3: for every normalized input state and all valid qubit indices,
`apply_hadamard` and `apply_controlled_not` preserve the invariant that the
sum of squared amplitude magnitudes equals 1 (exactly, in this exact-real
model). -/
theorem gates_preserve_normalization (n : ℕ) (s : QState n)
    (hs : normSqSum s = 1) :
    (∀ q s', apply_hadamard n s q = some s' → normSqSum s' = 1)
    ∧ ∀ c t s', apply_controlled_not n s c t = some s' → normSqSum s' = 1 := by
  constructor
  · intro q s' hsome
    by_cases hq : q < n
    · rw [apply_hadamard, dif_pos hq] at hsome
      rw [← Option.some.inj hsome, hTrans_normSqSum, hs]
    · rw [apply_hadamard, dif_neg hq] at hsome
      exact Option.noConfusion hsome
  · intro c t s' hsome
    by_cases h : c < n ∧ t < n ∧ c ≠ t
    · rw [apply_controlled_not, dif_pos h] at hsome
      rw [← Option.some.inj hsome, cxTrans_normSqSum n c t h.2.1 h.2.2, hs]
    · rw [apply_controlled_not, dif_neg h] at hsome
      exact Option.noConfusion hsome

/-- Witness for C3: the normalized state `|00⟩` stays normalized through the
Hadamard gate on qubit 0. -/
theorem gates_preserve_normalization_witness : normSqSum hPlusState = 1 :=
  (gates_preserve_normalization 2 (initState 2)
    (normSqSum_basisState 2 ⟨0, Nat.two_pow_pos 2⟩)).1 0 hPlusState had_init

/-- Claim C4: `measure_all` applied to a deterministic basis state returns
that basis state's bitstring for every draw of the uniform random source
(any `r` with `0 ≤ r < 1`). -/
theorem measure_all_deterministic (n : ℕ) (i : Fin (2 ^ n)) (r : ℝ)
    (h0 : 0 ≤ r) (h1 : r < 1) :
    measure_all (basisState n i) r = toBitstring n (i : ℕ) :=
  measure_all_basisState n i r h0 h1

/-- Witness for C4: the basis state `"01"` measures to `"01"` at `r = 1/2`. -/
theorem measure_all_deterministic_witness :
    measure_all (basisState 2 ⟨1, by norm_num⟩) 2⁻¹ = "01" :=
  (measure_all_deterministic 2 ⟨1, by norm_num⟩ 2⁻¹ (by norm_num)
    (by norm_num)).trans toBitstring_two_one

/-- Claim C5: applying `apply_hadamard` twice to the same in-range qubit of a
basis state returns the original state exactly (Hadamard is self-inverse). -/
theorem hadamard_self_inverse (n q : ℕ) (hq : q < n) (i : Fin (2 ^ n)) :
    (apply_hadamard n (basisState n i) q).bind (fun s' => apply_hadamard n s' q)
      = some (basisState n i) := by
  rw [apply_hadamard, dif_pos hq]
  show apply_hadamard n (hTrans n q hq (basisState n i)) q
    = some (basisState n i)
  rw [apply_hadamard, dif_pos hq, hTrans_hTrans]

/-- Witness for C5 on the basis state `|00⟩` and qubit 0. -/
theorem hadamard_self_inverse_witness :
    (apply_hadamard 2 (basisState 2 ⟨0, Nat.two_pow_pos 2⟩) 0).bind
        (fun s' => apply_hadamard 2 s' 0)
      = some (basisState 2 ⟨0, Nat.two_pow_pos 2⟩) :=
  hadamard_self_inverse 2 0 (by norm_num) ⟨0, Nat.two_pow_pos 2⟩

/-- Claim C6: applying `apply_controlled_not` twice with the same distinct
in-range control and target returns the original state (controlled-NOT is
self-inverse), for every state. -/
theorem cnot_self_inverse (n c t : ℕ) (hc : c < n) (ht : t < n) (hne : c ≠ t)
    (s : QState n) :
    (apply_controlled_not n s c t).bind (fun s' => apply_controlled_not n s' c t)
      = some s := by
  have h : c < n ∧ t < n ∧ c ≠ t := ⟨hc, ht, hne⟩
  rw [apply_controlled_not, dif_pos h]
  show apply_controlled_not n (cxTrans n c t h.2.1 s) c t = some s
  rw [apply_controlled_not, dif_pos h, cxTrans_cxTrans n c t h.2.1 hne s]

/-- Witness for C6 on `|00⟩` with control 0 and target 1. -/
theorem cnot_self_inverse_witness :
    (apply_controlled_not 2 (initState 2) 0 1).bind
        (fun s' => apply_controlled_not 2 s' 0 1)
      = some (initState 2) :=
  cnot_self_inverse 2 0 1 (by norm_num) (by norm_num) (by norm_num)
    (initState 2)

/-- Claim C7: `apply_hadamard` succeeds for every in-range qubit index and
fails (returns `none`, the IndexError-equivalent) exactly when the qubit
index is out of range. -/
theorem hadamard_error_iff (n : ℕ) (s : QState n) (q : ℕ) :
    apply_hadamard n s q = none ↔ n ≤ q := by
  by_cases hq : q < n
  · rw [apply_hadamard, dif_pos hq]
    exact iff_of_false (Option.some_ne_none _) (not_le.mpr hq)
  · rw [apply_hadamard, dif_neg hq]
    exact iff_of_true rfl (le_of_not_lt hq)

/-- Claim C8: `apply_controlled_not` fails exactly when `control = target` or
either index is out of range; for distinct in-range indices it succeeds. -/
theorem cnot_error_iff (n : ℕ) (s : QState n) (c t : ℕ) :
    apply_controlled_not n s c t = none ↔ c = t ∨ n ≤ c ∨ n ≤ t := by
  by_cases h : c < n ∧ t < n ∧ c ≠ t
  · rw [apply_controlled_not, dif_pos h]
    refine iff_of_false (Option.some_ne_none _) ?_
    rintro (h' | h' | h')
    · exact h.2.2 h'
    · exact absurd h.1 (not_lt.mpr h')
    · exact absurd h.2.1 (not_lt.mpr h')
  · rw [apply_controlled_not, dif_neg h]
    refine iff_of_true rfl ?_
    by_contra hcon
    push_neg at hcon
    exact h ⟨hcon.2.1, hcon.2.2, hcon.1⟩

/-- Claim C9: the circuit is immutable once built: running the shot loop on a
circuit (any number of shots, any random source) returns the circuit's gate
sequence unchanged; only the histogram is produced alongside it. -/
theorem run_shots_circuit_unchanged (circ : Circuit) (shots : ℕ)
    (rng : ℕ → ℝ) : (run_shots circ shots rng).2 = circ :=
  run_shots_snd circ shots rng

/-- Claim C10: the circuit passed to the simulator is definitionally the
circuit as constructed: `compiled_circuit` is bound to `circuit` with no
transformation, so the simulator executes exactly the Hadamard,
controlled-NOT, measure sequence that was built. -/
theorem compiled_circuit_identity :
    compiled_circuit = circuit ∧ compiled_circuit.gates = specGateSequence :=
  ⟨rfl, rfl⟩

end QuantumSim
